import Mathlib

/-!
Verification of the `har_downloader` pipeline (`src/har_downloader.py`).

Python strings are embedded as `List Char`; the filesystem is an
association list from paths to file contents; network retrieval is an
oracle `List Char → List Char` from locators to contents; external
process invocations and file-system mutations of the reassembly phase
are recorded as an event trace.  Python's partial operations (list
indexing, `re.findall(...)[-1]`) are embedded with `Option`: `none`
models the uncaught exception that aborts the run.

Path handling follows the Windows behaviour the script is written for:
`os.path.join` and `os.path.basename` use the separator `\`, matching
the literal `'\\'` manipulations in `integrated_audio_concat`.
-/

/-- The newline character, on which the capture text is split into lines. -/
def nlChar : Char := Char.ofNat 10

/-- The double-quote character, the token delimiter of capture lines. -/
def quoteChar : Char := Char.ofNat 34

/-- The single-quote character used around manifest entries. -/
def sqChar : Char := Char.ofNat 39

/-- The Windows path separator `\` used by `os.path.join`/`basename`. -/
def bslash : Char := Char.ofNat 92

/-- The `/` separator the script uses literally for `files.txt` paths. -/
def slash : Char := Char.ofNat 47

/-- Python `s.split(sep)` for a one-character separator: splits on every
occurrence, keeping empty pieces, and yields `[s]` when `sep` is absent
(in particular `[[]]` on the empty string). -/
def splitOnChar (c : Char) : List Char → List (List Char)
  | [] => [[]]
  | a :: as =>
    let r := splitOnChar c as
    if a = c then [] :: r
    else
      match r with
      | [] => [[a]]
      | h :: t => (a :: h) :: t

/-- Python `sep.join(pieces)` for a one-character separator. -/
def joinChar (c : Char) : List (List Char) → List Char
  | [] => []
  | [x] => x
  | x :: xs => x ++ c :: joinChar c xs

/-- `isPrefixL p s`: `p` is a prefix of `s` (Boolean). -/
def isPrefixL : List Char → List Char → Bool
  | [], _ => true
  | _ :: _, [] => false
  | a :: as, b :: bs => a = b && isPrefixL as bs

/-- Python `needle in hay` for strings: substring containment. -/
def containsSub (needle : List Char) : List Char → Bool
  | [] => isPrefixL needle []
  | c :: cs => isPrefixL needle (c :: cs) || containsSub needle cs

/-- Python `s.endswith(suffix)`. -/
def endsWithL (sfx s : List Char) : Bool := isPrefixL sfx.reverse s.reverse

/-- Python `s[-n:]`: the last `n` elements (all of `s` when it is shorter). -/
def lastN (n : Nat) (s : List Char) : List Char := s.drop (s.length - n)

/-- Helper of `digitRuns`: `cur` is the reversed run of digits currently
being accumulated. -/
def digitRunsAux : List Char → List Char → List (List Char)
  | cur, [] => if cur = [] then [] else [cur.reverse]
  | cur, c :: cs =>
    if c.isDigit then digitRunsAux (c :: cur) cs
    else if cur = [] then digitRunsAux [] cs
    else cur.reverse :: digitRunsAux [] cs

/-- Python `re.findall(r'\d+', s)`: the maximal runs of decimal digits of
`s`, in order. -/
def digitRuns (s : List Char) : List (List Char) := digitRunsAux [] s

/-- Python `int(s)` for a string of decimal digits. -/
def digitsToNat (s : List Char) : Nat := s.foldl (fun acc c => acc * 10 + (c.toNat - 48)) 0

/-- `os.path.join(a, b)` with the Windows separator. -/
def os_join (a b : List Char) : List Char := a ++ bslash :: b

/-- `os.path.basename(p)` with the Windows separator. -/
def basename (p : List Char) : List Char := (splitOnChar bslash p).getLastD []

/-- Source `har_line_filter` (line 39): a line passes iff it contains one
of `.mp4`, `.ts`, `.aac` and does not contain `value`. -/
def har_line_filter (line : List Char) : Bool :=
  (containsSub ".mp4".toList line || containsSub ".ts".toList line
      || containsSub ".aac".toList line)
    && !containsSub "value".toList line

/-- The comprehension of source line 50:
`[line.split('"')[3] for line in har_file if har_line_filter(line)]`.
`none` models the `IndexError` on a passing line with fewer than four
quote-delimited tokens. -/
def extract_links : List (List Char) → Option (List (List Char))
  | [] => some []
  | line :: rest =>
    if har_line_filter line then
      match (splitOnChar quoteChar line).get? 3, extract_links rest with
      | some tok, some toks => some (tok :: toks)
      | _, _ => none
    else extract_links rest

/-- The final filter of source line 51:
`[link for link in video_links if link.endswith(".ts") or link.endswith(".aac")]`. -/
def ts_aac_filter (links : List (List Char)) : List (List Char) :=
  links.filter (fun link => endsWithL ".ts".toList link || endsWithL ".aac".toList link)

/-- Source `get_video_links_from_har` (lines 44-51), applied to the text
of the capture file (the file read is abstracted to its contents). -/
def get_video_links_from_har (har_text : List Char) : Option (List (List Char)) :=
  (extract_links (splitOnChar nlChar har_text)).map ts_aac_filter

/-- Modelled from the spec words of C1, per line: if the line contains
one of `.mp4`, `.ts`, `.aac` and does not contain `value`, its 4th
double-quote-delimited token, kept when it ends in `.ts` or `.aac`. -/
def scanLine_spec (line : List Char) : Option (List Char) :=
  if (containsSub ".mp4".toList line || containsSub ".ts".toList line
        || containsSub ".aac".toList line)
      && !containsSub "value".toList line then
    match (splitOnChar quoteChar line).get? 3 with
    | some tok =>
      if endsWithL ".ts".toList tok || endsWithL ".aac".toList tok then some tok else none
    | none => none
  else none

/-- Modelled from the spec words of C1: the kept 4th tokens of the
candidate lines, in original line order. -/
def captureScanner_spec (har_text : List Char) : List (List Char) :=
  (splitOnChar nlChar har_text).filterMap scanLine_spec

/-- Source line 66:
`number = ("0000000" + re.findall(r'\d+', video_link)[-1])[-5:]`.
`none` models the `IndexError` when the locator has no digit. -/
def seq_number (link : List Char) : Option (List Char) :=
  (digitRuns link).getLast?.map (fun run => lastN 5 (List.replicate 7 '0' ++ run))

/-- Source line 67: `extension = video_link.split(".")[-1]` (total:
`split` always returns a non-empty list). -/
def link_extension (link : List Char) : List Char :=
  (splitOnChar '.' link).getLastD []

/-- Source line 62: the fragment path template
`os.path.join(output_path, "fragments", f"{output_name}_{number}.{extension}")`
with `output_name = os.path.basename(output_path)`. -/
def file_path_i (output_path number extension : List Char) : List Char :=
  os_join (os_join output_path "fragments".toList)
    (basename output_path ++ '_' :: (number ++ '.' :: extension))

/-- The local path a locator derives (lines 66-68); `none` when the
locator has no digit. -/
def derived_path (output_path link : List Char) : Option (List Char) :=
  (seq_number link).map (fun number => file_path_i output_path number (link_extension link))

/-- Total version of `derived_path` (defaulting to `[]`), used to state
distinctness hypotheses. -/
def derived_pathD (output_path link : List Char) : List Char :=
  (derived_path output_path link).getD []

/-- The filesystem: an association list from paths to file contents. -/
abbrev Disk : Type := List (List Char × List Char)

/-- `os.path.exists`/read: the content stored at `p`, if any. -/
def diskGet (d : Disk) (p : List Char) : Option (List Char) :=
  match d with
  | [] => none
  | (q, c) :: t => if q = p then some c else diskGet t p

/-- `os.remove p`. -/
def diskRemove (d : Disk) (p : List Char) : Disk :=
  match d with
  | [] => []
  | (q, c) :: t => if q = p then diskRemove t p else (q, c) :: diskRemove t p

/-- Writing content `c` to path `p` (as `urllib.request.urlretrieve` does). -/
def diskWrite (d : Disk) (p c : List Char) : Disk := (p, c) :: diskRemove d p

/-- The mutable state of `download_video_fragments` (lines 54-86): the
filesystem, the two accumulator lists, and two observation counters —
network transfers performed (`urlretrieve` calls) and duplicate notices
printed. -/
structure FetchState where
  disk : Disk
  audio_file_paths : List (List Char)
  video_file_paths : List (List Char)
  transfers : Nat
  notices : Nat
deriving DecidableEq

/-- Lines 70-71: `if os.path.exists(out_path) and (out_path in
video_file_paths or out_path in audio_file_paths): os.remove(out_path)`. -/
def staleEvict (st : FetchState) (out_path : List Char) : Disk :=
  if (diskGet st.disk out_path).isSome
      && (st.video_file_paths.contains out_path
          || st.audio_file_paths.contains out_path) then
    diskRemove st.disk out_path
  else st.disk

/-- Lines 73-74: `if not os.path.exists(out_path):
urllib.request.urlretrieve(video_link, out_path)` — returns the updated
disk and transfer count. -/
def fetchIfAbsent (d : Disk) (out_path content : List Char) (transfers : Nat) : Disk × Nat :=
  if (diskGet d out_path).isNone then (diskWrite d out_path content, transfers + 1)
  else (d, transfers)

/-- Lines 76-84: skip (with a possible duplicate notice) when the path
is already recorded, else append it to the audio or video sequence. -/
def recordFragment (n_links : Nat) (st : FetchState) (d : Disk) (t : Nat)
    (number out_path extension : List Char) : FetchState :=
  if st.audio_file_paths.contains out_path || st.video_file_paths.contains out_path then
    { st with
        disk := d
        transfers := t
        notices := if 5 < digitsToNat number || n_links < 20 then st.notices + 1
                   else st.notices }
  else if extension = "aac".toList then
    { st with
        disk := d
        transfers := t
        audio_file_paths := st.audio_file_paths ++ [out_path] }
  else
    { st with
        disk := d
        transfers := t
        video_file_paths := st.video_file_paths ++ [out_path] }

/-- One iteration of the loop of `download_video_fragments`
(lines 65-84) on locator `video_link`.  `net` is the network oracle,
`n_links` the total locator count (`len(video_links)`).  `none` models
the `IndexError` of line 66 on a digit-free locator. -/
def stepFetch (net : List Char → List Char) (n_links : Nat) (output_path : List Char)
    (st : FetchState) (video_link : List Char) : Option FetchState :=
  match seq_number video_link with
  | none => none
  | some number =>
    let extension := link_extension video_link
    let out_path := file_path_i output_path number extension
    let p := fetchIfAbsent (staleEvict st out_path) out_path (net video_link) st.transfers
    some (recordFragment n_links st p.1 p.2 number out_path extension)

/-- The loop of `download_video_fragments` over the locator list. -/
def fetchLoop (net : List Char → List Char) (n_links : Nat) (output_path : List Char) :
    FetchState → List (List Char) → Option FetchState
  | st, [] => some st
  | st, l :: ls =>
    match stepFetch net n_links output_path st l with
    | none => none
    | some st' => fetchLoop net n_links output_path st' ls

/-- Source `download_video_fragments` (lines 54-86), starting from a
given filesystem `disk0` (the fragment directory left by prior runs;
directory creation has no observable effect in this model).  The
returned state carries the `(audio_file_paths, video_file_paths)` pair
the source returns, plus the final filesystem and the counters. -/
def download_video_fragments (net : List Char → List Char) (video_links : List (List Char))
    (output_path : List Char) (disk0 : Disk) : Option FetchState :=
  fetchLoop net video_links.length output_path
    { disk := disk0, audio_file_paths := [], video_file_paths := [],
      transfers := 0, notices := 0 } video_links

/-- The audio accumulator `download_video_fragments` builds over fresh
paths: the derived paths of the locators with extension `aac`, in order. -/
def audioOf (output_path : List Char) : List (List Char) → List (List Char)
  | [] => []
  | l :: ls =>
    if link_extension l = "aac".toList then derived_pathD output_path l :: audioOf output_path ls
    else audioOf output_path ls

/-- The video accumulator over fresh paths: derived paths of the
locators with extension other than `aac`, in order. -/
def videoOf (output_path : List Char) : List (List Char) → List (List Char)
  | [] => []
  | l :: ls =>
    if link_extension l = "aac".toList then videoOf output_path ls
    else derived_pathD output_path l :: videoOf output_path ls

/-- Fuel-driven helper of `replaceSub` (the fuel bounds the scan length,
`s.length` always suffices since every step consumes at least one
character of `s`). -/
def replaceSubAux (pat rep : List Char) : Nat → List Char → List Char
  | 0, s => s
  | _ + 1, [] => []
  | fuel + 1, c :: cs =>
    if isPrefixL pat (c :: cs) then rep ++ replaceSubAux pat rep fuel ((c :: cs).drop pat.length)
    else c :: replaceSubAux pat rep fuel cs

/-- Python `s.replace(pat, rep)` for a non-empty `pat`: replaces every
leftmost non-overlapping occurrence. -/
def replaceSub (pat rep s : List Char) : List Char := replaceSubAux pat rep s.length s

/-- Source line 95: `"\\".join(path.split('\\')[1:])` — the manifest
entry written for a fragment path (its first `\`-delimited component
removed). -/
def relpath_entry (path : List Char) : List Char :=
  joinChar bslash ((splitOnChar bslash path).drop 1)

/-- Modelled from the spec words of C5: the path `p` expressed relative
to the directory `dir` (defined when `dir ++ "\"` is a prefix of `p`). -/
def relativeToDir (dir p : List Char) : Option (List Char) :=
  if isPrefixL (dir ++ [bslash]) p then some (p.drop (dir.length + 1)) else none

/-- The observable effects of the reassembly phase: directory creation,
external `ffmpeg` invocations (`muxPair` for the two-input per-index
mux, `concatCall` for the concat-demuxer call), the manifest write, file
and directory deletions, and the small-artifact warning print. -/
inductive Event where
  | mkdirDir (dir : List Char)
  | muxPair (video audio out : List Char)
  | writeManifest (path : List Char) (entries : List (List Char))
  | concatCall (manifest out : List Char)
  | removeFile (path : List Char)
  | rmTree (dir : List Char)
  | warnSmall
deriving DecidableEq

/-- The text `integrated_audio_concat` writes to `files.txt` for a list
of manifest entries: one line `file '<entry>'` per entry. -/
def manifest_text (entries : List (List Char)) : List Char :=
  (entries.map (fun e => "file ".toList ++ sqChar :: e ++ [sqChar, nlChar])).flatten

/-- Source `integrated_audio_concat` (lines 89-104): writes the manifest
`{output_path}/files.txt` (entries per `relpath_entry`), invokes the
external concat-demuxer call, and returns the output video path
(defaulted from the output identifier when not supplied). -/
def integrated_audio_concat (output_path : List Char) (video_file_paths : List (List Char))
    (video_path? : Option (List Char)) : List Event × List Char :=
  let file_list_path := output_path ++ slash :: "files.txt".toList
  let entries := video_file_paths.map relpath_entry
  let video_path :=
    match video_path? with
    | some vp => vp
    | none => output_path ++ slash :: (basename output_path ++ ".mp4".toList)
  ([Event.writeManifest file_list_path entries,
    Event.concatCall file_list_path video_path], video_path)

/-- Source `separate_audio_concat` (lines 107-130).  The `assert` of
line 110 is modelled as an `Except.error` carrying the message's pair
`(n_audio, n_video)` — which the source, in a naming slip, binds to
`(len(video_file_paths), len(audio_file_paths))`.  On success: create
the temp directory, mux each audio/video pair into a temp `.mp4`
(path per `audio.replace(".aac", ".mp4").replace("fragments", "temp")`),
concatenate via `integrated_audio_concat`, then remove the temp
directory unconditionally. -/
def separate_audio_concat (output_path : List Char) (video_file_paths audio_file_paths : List (List Char)) :
    List Event × Except (Nat × Nat) (List Char) :=
  let n_audio := video_file_paths.length
  let n_video := audio_file_paths.length
  if n_audio = n_video then
    let temp_dir_path := os_join output_path "temp".toList
    let pairs := audio_file_paths.zip video_file_paths
    let muxEvents := pairs.map (fun pr =>
      Event.muxPair pr.2 pr.1
        (replaceSub "fragments".toList "temp".toList
          (replaceSub ".aac".toList ".mp4".toList pr.1)))
    let mp4_fragment_paths := pairs.map (fun pr =>
      replaceSub "fragments".toList "temp".toList
        (replaceSub ".aac".toList ".mp4".toList pr.1))
    let video_path := os_join output_path (basename output_path ++ ".mp4".toList)
    let r := integrated_audio_concat output_path mp4_fragment_paths (some video_path)
    (Event.mkdirDir temp_dir_path :: muxEvents ++ r.1 ++ [Event.rmTree temp_dir_path],
     Except.ok r.2)
  else ([], Except.error (n_audio, n_video))

/-- The strategy selection of `fragment_concat` (lines 135-138): the
integrated strategy when `audio_file_paths` is empty, else the
separate-tracks strategy. -/
def reassembly_run (output_path : List Char) (video_file_paths audio_file_paths : List (List Char)) :
    List Event × Except (Nat × Nat) (List Char) :=
  if audio_file_paths.length = 0 then
    let r := integrated_audio_concat output_path video_file_paths none
    (r.1, Except.ok r.2)
  else separate_audio_concat output_path video_file_paths audio_file_paths

/-- Source `fragment_concat` (lines 133-147): run the selected strategy,
read the final artifact's size (`getsize` is the size oracle standing
for `os.path.getsize`), and either warn (size under 10000) or delete the
manifest and the fragments directory. -/
def fragment_concat (getsize : List Char → Nat) (output_path : List Char)
    (video_file_paths audio_file_paths : List (List Char)) :
    List Event × Except (Nat × Nat) Unit :=
  match reassembly_run output_path video_file_paths audio_file_paths with
  | (ev, Except.error e) => (ev, Except.error e)
  | (ev, Except.ok video_path) =>
    let video_size := getsize video_path
    if video_size < 10000 then (ev ++ [Event.warnSmall], Except.ok ())
    else
      (ev ++ [Event.removeFile (os_join output_path "files.txt".toList),
              Event.rmTree (os_join output_path "fragments".toList)], Except.ok ())

/-! Concrete inputs used to instantiate the theorems. -/

/-- A locator whose last digit run is `3`. -/
def seg3 : List Char := "segment3.ts".toList

/-- A capture line of the expected shape whose 4th quote-delimited token
is `y1.ts`. -/
def wline1 : List Char :=
  "x".toList ++ quoteChar :: "url".toList ++ quoteChar :: ": ".toList
    ++ quoteChar :: "y1.ts".toList ++ quoteChar :: ",".toList

/-- A capture line matching no media-type substring. -/
def wline2 : List Char := "no match here".toList

/-- A two-line capture text. -/
def wtext : List Char := wline1 ++ nlChar :: wline2

/-- A constant network oracle. -/
def net0 : List Char → List Char := fun _ => "DATA".toList

/-- A one-component output identifier. -/
def op0 : List Char := "o".toList

/-- A video locator deriving sequence number `00001`. -/
def linkV1 : List Char := "a1.ts".toList

/-- An audio locator deriving sequence number `00002`. -/
def linkA2 : List Char := "b2.aac".toList

/-- A digit-free locator. -/
def linkNoDigit : List Char := "abc.ts".toList

/-- A fetched video fragment path under `op0`. -/
def vf7 : List Char := os_join (os_join op0 "fragments".toList) "o_00001.ts".toList

/-- A fetched audio fragment path under `op0`. -/
def af7 : List Char := os_join (os_join op0 "fragments".toList) "o_00002.aac".toList

/-- A two-component output identifier (contains the separator). -/
def opm : List Char := "a".toList ++ bslash :: "b".toList

/-- A fragment path under `opm`. -/
def pm : List Char := opm ++ bslash :: "fragments".toList ++ bslash :: "f0.ts".toList

/-- A fetch state that has already claimed `derived_pathD op0 linkV1` in
its video sequence, with stale content on disk at that path. -/
def stDup : FetchState :=
  { disk := [(derived_pathD op0 linkV1, "OLD".toList)],
    audio_file_paths := [], video_file_paths := [derived_pathD op0 linkV1],
    transfers := 0, notices := 0 }

/-- The disk left by a first run of the fetcher over
`[linkV1, linkA2]` starting from an empty disk. -/
def disk1 : Disk := [(af7, "DATA".toList), (vf7, "DATA".toList)]

/-- A size oracle reporting every artifact as 9999 bytes. -/
def g9999 : List Char → Nat := fun _ => 9999

/-- A size oracle reporting every artifact as 10000 bytes. -/
def g10000 : List Char → Nat := fun _ => 10000

/-! ## Theorems -/

/-- `scanLine_spec`'s candidate condition is exactly `har_line_filter`. -/
theorem scanLine_spec_eq (line : List Char) :
    scanLine_spec line =
      if har_line_filter line then
        match (splitOnChar quoteChar line).get? 3 with
        | some tok =>
          if endsWithL ".ts".toList tok || endsWithL ".aac".toList tok then some tok
          else none
        | none => none
      else none := rfl

/-- Unfolding of `extract_links` on a rejected line. -/
theorem extract_links_cons_false {line : List Char} {rest : List (List Char)}
    (hf : har_line_filter line = false) :
    extract_links (line :: rest) = extract_links rest := by
  conv_lhs => rw [extract_links]
  rw [hf]
  simp

/-- Unfolding of `extract_links` on a passing line with a 4th token. -/
theorem extract_links_cons_true {line tok : List Char} {rest L : List (List Char)}
    (hf : har_line_filter line = true)
    (htok : (splitOnChar quoteChar line).get? 3 = some tok)
    (hL : extract_links rest = some L) :
    extract_links (line :: rest) = some (tok :: L) := by
  conv_lhs => rw [extract_links]
  rw [hf, htok, hL]
  simp

/-- The link comprehension followed by the extension filter computes the
spec's per-line `filterMap`, when every passing line has at least four
quote-delimited tokens. -/
theorem extract_links_spec (lines : List (List Char))
    (h : ∀ line ∈ lines, har_line_filter line = true →
      4 ≤ (splitOnChar quoteChar line).length) :
    (extract_links lines).map ts_aac_filter = some (lines.filterMap scanLine_spec) := by
  induction lines with
  | nil => rfl
  | cons line rest ih =>
    obtain ⟨L, hL, hLf⟩ := Option.map_eq_some'.mp
      (ih (fun l hl hf => h l (List.mem_cons_of_mem _ hl) hf))
    cases hf : har_line_filter line with
    | false =>
      have hnone : scanLine_spec line = none := by
        rw [scanLine_spec_eq, hf]
        simp
      rw [List.filterMap_cons_none hnone, extract_links_cons_false hf, hL]
      simp [hLf]
    | true =>
      have hlen := h line (List.mem_cons_self _ _) hf
      have h3 : (splitOnChar quoteChar line).get? 3 ≠ none := by
        intro hn
        rw [List.get?_eq_none] at hn
        omega
      obtain ⟨tok, htok⟩ := Option.ne_none_iff_exists'.mp h3
      have hspec : scanLine_spec line =
          if endsWithL ".ts".toList tok || endsWithL ".aac".toList tok then some tok
          else none := by
        rw [scanLine_spec_eq, hf, htok]
        simp
      rw [extract_links_cons_true hf htok hL]
      cases he : (endsWithL ".ts".toList tok || endsWithL ".aac".toList tok) with
      | false =>
        rw [List.filterMap_cons_none (by rw [hspec, he]; rfl)]
        simp only [Option.map_some']
        unfold ts_aac_filter at hLf ⊢
        rw [List.filter_cons_of_neg (by rw [he]; exact Bool.false_ne_true), hLf]
      | true =>
        rw [List.filterMap_cons_some (by rw [hspec, he]; rfl)]
        simp only [Option.map_some']
        unfold ts_aac_filter at hLf ⊢
        rw [List.filter_cons_of_pos (by rw [he]), hLf]

/-- C1: provided each candidate line splits into at least four
double-quote-delimited tokens, the scanner's output is exactly the 4th
quote-delimited token of every line containing one of `.mp4`, `.ts`,
`.aac` and not containing `value`, restricted to tokens ending in `.ts`
or `.aac`, in original line order. -/
theorem c1_scanner_matches_spec (har_text : List Char)
    (h : ∀ line ∈ splitOnChar nlChar har_text, har_line_filter line = true →
      4 ≤ (splitOnChar quoteChar line).length) :
    get_video_links_from_har har_text = some (captureScanner_spec har_text) :=
  extract_links_spec _ h

/-- Witness for C1 at the concrete capture `wtext`. -/
theorem c1_witness :
    get_video_links_from_har wtext = some (captureScanner_spec wtext) ∧
    captureScanner_spec wtext = ["y1.ts".toList] :=
  ⟨c1_scanner_matches_spec wtext (by decide), by decide⟩

/-- Taking the last 5 characters of 7 zeros followed by `run` left-pads
`run`'s last 5 characters with zeros to width 5. -/
theorem lastN_replicate_pad (run : List Char) :
    lastN 5 (List.replicate 7 '0' ++ run) =
      List.replicate (5 - run.length) '0' ++ lastN 5 run := by
  unfold lastN
  rw [List.length_append, List.length_replicate]
  rcases le_or_lt run.length 5 with hk | hk
  · have h1 : 7 + run.length - 5 = 2 + run.length := by omega
    have h2 : run.length - 5 = 0 := by omega
    rw [h1, h2, List.drop_append_of_le_length (by rw [List.length_replicate]; omega),
      List.drop_replicate, List.drop_zero]
    have h3 : 7 - (2 + run.length) = 5 - run.length := by omega
    rw [h3]
  · have h1 : 7 + run.length - 5 = (List.replicate 7 '0').length + (run.length - 5) := by
      rw [List.length_replicate]
      omega
    have h2 : 5 - run.length = 0 := by omega
    rw [h1, List.drop_append, h2, List.replicate_zero, List.nil_append]

/-- `digitRunsAux` with a non-empty current run never returns `[]`. -/
theorem digitRunsAux_ne_nil (l : List Char) :
    ∀ cur : List Char, cur ≠ [] → digitRunsAux cur l ≠ [] := by
  induction l with
  | nil =>
    intro cur h
    simp [digitRunsAux, h]
  | cons c cs ih =>
    intro cur h
    by_cases hc : c.isDigit
    · simpa [digitRunsAux, hc] using ih (c :: cur) (by simp)
    · simp [digitRunsAux, hc, h]

/-- A locator containing a digit has a non-empty run list. -/
theorem digitRuns_ne_nil (l : List Char) (h : l.any Char.isDigit = true) :
    digitRuns l ≠ [] := by
  unfold digitRuns
  induction l with
  | nil => simp at h
  | cons c cs ih =>
    by_cases hc : c.isDigit
    · simpa [digitRunsAux, hc] using digitRunsAux_ne_nil cs [c] (by simp)
    · have hcs : cs.any Char.isDigit = true := by
        rw [List.any_cons] at h
        simpa [hc] using h
      simpa [digitRunsAux, hc] using ih hcs

/-- A digit-free locator has an empty run list. -/
theorem digitRuns_eq_nil (l : List Char) (h : l.any Char.isDigit = false) :
    digitRuns l = [] := by
  unfold digitRuns
  induction l with
  | nil => rfl
  | cons c cs ih =>
    rw [List.any_cons] at h
    have hc : c.isDigit = false := by
      cases hd : c.isDigit
      · rfl
      · rw [hd] at h
        simp at h
    have hcs : cs.any Char.isDigit = false := by
      rw [hc] at h
      simpa using h
    simp [digitRunsAux, hc, ih hcs]

/-- C2: for a locator containing at least one decimal digit, the derived
sequence number is the last maximal digit run, truncated to its last 5
digits and left-padded with zeros to 5 characters. -/
theorem c2_sequence_number (link : List Char) (h : link.any Char.isDigit = true) :
    seq_number link =
      some (List.replicate (5 - ((digitRuns link).getLastD []).length) '0'
        ++ lastN 5 ((digitRuns link).getLastD [])) ∧
    (List.replicate (5 - ((digitRuns link).getLastD []).length) '0'
        ++ lastN 5 ((digitRuns link).getLastD [])).length = 5 := by
  have hne := digitRuns_ne_nil link h
  have hsome : (digitRuns link).getLast?.isSome := List.getLast?_isSome.mpr hne
  obtain ⟨run, hrun⟩ := Option.isSome_iff_exists.mp hsome
  have hD : (digitRuns link).getLastD [] = run := by
    rw [List.getLastD_eq_getLast?, hrun]
    rfl
  constructor
  · unfold seq_number
    rw [hrun, Option.map_some', lastN_replicate_pad, hD]
  · rw [hD]
    rw [List.length_append, List.length_replicate]
    unfold lastN
    rw [List.length_drop]
    omega

/-- Witness for C2 at the concrete locator `segment3.ts` (run `3`,
padded to `00003`). -/
theorem c2_witness :
    seg3.any Char.isDigit = true ∧
    (seq_number seg3 =
        some (List.replicate (5 - ((digitRuns seg3).getLastD []).length) '0'
          ++ lastN 5 ((digitRuns seg3).getLastD [])) ∧
      (List.replicate (5 - ((digitRuns seg3).getLastD []).length) '0'
          ++ lastN 5 ((digitRuns seg3).getLastD [])).length = 5) ∧
    seq_number seg3 = some "00003".toList :=
  ⟨by decide, c2_sequence_number seg3 (by decide), by decide⟩

/-- A path not in a list has `contains` false. -/
theorem contains_eq_false {a : List Char} {l : List (List Char)} (h : a ∉ l) :
    l.contains a = false := by
  simp [List.contains, h]

/-- A path in a list has `contains` true. -/
theorem contains_eq_true {a : List Char} {l : List (List Char)} (h : a ∈ l) :
    l.contains a = true := by
  simp [List.contains, h]

/-- Reading after `diskRemove`. -/
theorem diskGet_diskRemove (d : Disk) (q p : List Char) :
    diskGet (diskRemove d q) p = if q = p then none else diskGet d p := by
  induction d with
  | nil => simp [diskRemove, diskGet]
  | cons hd t ih =>
    obtain ⟨r, c⟩ := hd
    by_cases hrq : r = q <;> by_cases hqp : q = p <;>
      simp_all [diskRemove, diskGet]

/-- Reading after `diskWrite`. -/
theorem diskGet_diskWrite (d : Disk) (q p c : List Char) :
    diskGet (diskWrite d q c) p = if q = p then some c else diskGet d p := by
  unfold diskWrite
  simp only [diskGet]
  rw [diskGet_diskRemove]
  by_cases hqp : q = p <;> simp [hqp]

/-- Unfolding of `stepFetch` when the sequence number is defined. -/
theorem stepFetch_eq (net : List Char → List Char) (n : Nat) (op st : _) (l number : List Char)
    (h : seq_number l = some number) :
    stepFetch net n op st l =
      some (recordFragment n st
        (fetchIfAbsent (staleEvict st (file_path_i op number (link_extension l)))
          (file_path_i op number (link_extension l)) (net l) st.transfers).1
        (fetchIfAbsent (staleEvict st (file_path_i op number (link_extension l)))
          (file_path_i op number (link_extension l)) (net l) st.transfers).2
        number (file_path_i op number (link_extension l)) (link_extension l)) := by
  unfold stepFetch
  rw [h]

/-- A digit-free locator aborts the step before any effect (C10's
per-locator core). -/
theorem stepFetch_none (net : List Char → List Char) (n : Nat) (op st : _) (l : List Char)
    (h : l.any Char.isDigit = false) :
    stepFetch net n op st l = none := by
  unfold stepFetch seq_number
  rw [digitRuns_eq_nil l h]
  rfl

/-- A locator with a digit always completes its step. -/
theorem stepFetch_isSome (net : List Char → List Char) (n : Nat) (op st : _) (l : List Char)
    (h : l.any Char.isDigit = true) :
    ∃ st', stepFetch net n op st l = some st' := by
  have hne := digitRuns_ne_nil l h
  obtain ⟨run, hrun⟩ := Option.isSome_iff_exists.mp (List.getLast?_isSome.mpr hne)
  have hseq : seq_number l = some (lastN 5 (List.replicate 7 '0' ++ run)) := by
    unfold seq_number
    rw [hrun, Option.map_some']
  exact ⟨_, stepFetch_eq net n op st l _ hseq⟩

/-- Step on a locator whose derived path is fresh (recorded in neither
sequence): no eviction, fetch only when absent, and the path is appended
to the sequence matching its extension. -/
theorem stepFetch_fresh (net : List Char → List Char) (n : Nat) (op st : _) (l q : List Char)
    (hq : derived_path op l = some q)
    (ha : q ∉ st.audio_file_paths) (hv : q ∉ st.video_file_paths) :
    stepFetch net n op st l = some (
      if link_extension l = "aac".toList then
        { st with
            disk := (fetchIfAbsent st.disk q (net l) st.transfers).1
            transfers := (fetchIfAbsent st.disk q (net l) st.transfers).2
            audio_file_paths := st.audio_file_paths ++ [q] }
      else
        { st with
            disk := (fetchIfAbsent st.disk q (net l) st.transfers).1
            transfers := (fetchIfAbsent st.disk q (net l) st.transfers).2
            video_file_paths := st.video_file_paths ++ [q] }) := by
  obtain ⟨number, hnum, hq'⟩ := Option.map_eq_some'.mp hq
  rw [stepFetch_eq net n op st l number hnum, hq']
  have hse : staleEvict st q = st.disk := by
    unfold staleEvict
    rw [contains_eq_false hv, contains_eq_false ha]
    simp
  rw [hse]
  unfold recordFragment
  rw [contains_eq_false ha, contains_eq_false hv]
  simp

/-- Step on a locator whose derived path is already recorded and present
on disk: the stale file is evicted, the content is re-fetched (one
transfer), and neither sequence changes (C8's stale-duplicate core). -/
theorem stepFetch_dup (net : List Char → List Char) (n : Nat) (op st : _) (l q : List Char)
    (hq : derived_path op l = some q)
    (hrec : q ∈ st.audio_file_paths ∨ q ∈ st.video_file_paths)
    (hdisk : (diskGet st.disk q).isSome = true) :
    ∃ st', stepFetch net n op st l = some st' ∧
      st'.audio_file_paths = st.audio_file_paths ∧
      st'.video_file_paths = st.video_file_paths ∧
      diskGet st'.disk q = some (net l) ∧
      st'.transfers = st.transfers + 1 := by
  obtain ⟨number, hnum, hq'⟩ := Option.map_eq_some'.mp hq
  have hcont1 : (st.video_file_paths.contains q || st.audio_file_paths.contains q) = true := by
    rcases hrec with h | h
    · rw [contains_eq_true h]
      simp
    · rw [contains_eq_true h]
      simp
  have hcont2 : (st.audio_file_paths.contains q || st.video_file_paths.contains q) = true := by
    rcases hrec with h | h
    · rw [contains_eq_true h]
      simp
    · rw [contains_eq_true h]
      simp
  have hse : staleEvict st q = diskRemove st.disk q := by
    unfold staleEvict
    rw [hdisk, hcont1]
    simp
  have hget : diskGet (diskRemove st.disk q) q = none := by
    rw [diskGet_diskRemove]
    simp
  have hfetch : fetchIfAbsent (diskRemove st.disk q) q (net l) st.transfers
      = (diskWrite (diskRemove st.disk q) q (net l), st.transfers + 1) := by
    unfold fetchIfAbsent
    rw [hget]
    simp
  refine ⟨recordFragment n st (diskWrite (diskRemove st.disk q) q (net l))
    (st.transfers + 1) number q (link_extension l), ?_, ?_, ?_, ?_, ?_⟩
  · rw [stepFetch_eq net n op st l number hnum, hq', hse, hfetch]
  · unfold recordFragment
    rw [hcont2]
    simp
  · unfold recordFragment
    rw [hcont2]
    simp
  · unfold recordFragment
    rw [hcont2]
    simp only [if_true]
    rw [diskGet_diskWrite]
    simp
  · unfold recordFragment
    rw [hcont2]
    simp

/-- A locator with a digit has a defined derived path. -/
theorem derived_path_eq_some (op l : List Char) (h : l.any Char.isDigit = true) :
    derived_path op l = some (derived_pathD op l) := by
  have hne := digitRuns_ne_nil l h
  obtain ⟨run, hrun⟩ := Option.isSome_iff_exists.mp (List.getLast?_isSome.mpr hne)
  unfold derived_pathD derived_path seq_number
  rw [hrun]
  rfl

/-- After `fetchIfAbsent`, the target path is on disk. -/
theorem fetchIfAbsent_get_self (d : Disk) (q c : List Char) (t : Nat) :
    (diskGet (fetchIfAbsent d q c t).1 q).isSome = true := by
  unfold fetchIfAbsent
  cases hd : diskGet d q with
  | none => simp [hd, diskGet_diskWrite]
  | some c0 => simp [hd]

/-- `fetchIfAbsent` never removes paths from the disk. -/
theorem fetchIfAbsent_get_mono (d : Disk) (q c p : List Char) (t : Nat)
    (h : (diskGet d p).isSome = true) :
    (diskGet (fetchIfAbsent d q c t).1 p).isSome = true := by
  unfold fetchIfAbsent
  cases hd : diskGet d q with
  | none =>
    simp only [hd, Option.isNone_none, if_true]
    rw [diskGet_diskWrite]
    by_cases hqp : q = p <;> simp [hqp, h]
  | some c0 => simpa [hd] using h

/-- `fetchIfAbsent` on a present path performs no transfer. -/
theorem fetchIfAbsent_present (d : Disk) (q c : List Char) (t : Nat)
    (h : (diskGet d q).isSome = true) :
    fetchIfAbsent d q c t = (d, t) := by
  unfold fetchIfAbsent
  cases hd : diskGet d q with
  | none =>
    rw [hd] at h
    simp at h
  | some c0 => simp [hd]

/-- A successful loop run implies every processed locator had a digit. -/
theorem fetchLoop_digits_of_isSome (net : List Char → List Char) (n : Nat) (op : List Char) :
    ∀ (links : List (List Char)) (st : FetchState),
      (fetchLoop net n op st links).isSome = true →
      ∀ l ∈ links, l.any Char.isDigit = true := by
  intro links
  induction links with
  | nil =>
    intro st _ l hl
    simp at hl
  | cons a as ih =>
    intro st h l hl
    cases hstep : stepFetch net n op st a with
    | none =>
      rw [fetchLoop, hstep] at h
      simp at h
    | some st1 =>
      rw [fetchLoop, hstep] at h
      rcases List.mem_cons.mp hl with rfl | hmem
      · cases hd : l.any Char.isDigit with
        | false =>
          rw [stepFetch_none net n op st l hd] at hstep
          cases hstep
        | true => rfl
      · exact ih st1 h l hmem

/-- When every locator has a digit the loop completes. -/
theorem fetchLoop_isSome_of_digits (net : List Char → List Char) (n : Nat) (op : List Char) :
    ∀ (links : List (List Char)) (st : FetchState),
      (∀ l ∈ links, l.any Char.isDigit = true) →
      (fetchLoop net n op st links).isSome = true := by
  intro links
  induction links with
  | nil =>
    intro st _
    simp [fetchLoop]
  | cons a as ih =>
    intro st h
    obtain ⟨st1, hst1⟩ := stepFetch_isSome net n op st a (h a (List.mem_cons_self _ _))
    rw [fetchLoop, hst1]
    exact ih st1 (fun l hl => h l (List.mem_cons_of_mem _ hl))

/-- One step preserves duplicate-freeness of both sequences. -/
theorem stepFetch_nodup (net : List Char → List Char) (n : Nat) (op : List Char)
    (st st' : FetchState) (l : List Char)
    (hstep : stepFetch net n op st l = some st')
    (ha : st.audio_file_paths.Nodup) (hv : st.video_file_paths.Nodup) :
    st'.audio_file_paths.Nodup ∧ st'.video_file_paths.Nodup := by
  cases hseq : seq_number l with
  | none =>
    unfold stepFetch at hstep
    rw [hseq] at hstep
    cases hstep
  | some number =>
    rw [stepFetch_eq net n op st l number hseq] at hstep
    obtain rfl := Option.some.inj hstep
    unfold recordFragment
    split
    · exact ⟨ha, hv⟩
    · split
      · rename_i hc hext
        refine ⟨?_, hv⟩
        rw [← List.concat_eq_append]
        refine List.Nodup.concat ?_ ha
        intro hmem
        rw [contains_eq_true hmem] at hc
        simp at hc
      · rename_i hc hext
        refine ⟨ha, ?_⟩
        rw [← List.concat_eq_append]
        refine List.Nodup.concat ?_ hv
        intro hmem
        rw [contains_eq_true hmem] at hc
        simp at hc

/-- The loop preserves duplicate-freeness of both sequences. -/
theorem fetchLoop_nodup (net : List Char → List Char) (n : Nat) (op : List Char) :
    ∀ (links : List (List Char)) (st st' : FetchState),
      fetchLoop net n op st links = some st' →
      st.audio_file_paths.Nodup → st.video_file_paths.Nodup →
      st'.audio_file_paths.Nodup ∧ st'.video_file_paths.Nodup := by
  intro links
  induction links with
  | nil =>
    intro st st' h ha hv
    unfold fetchLoop at h
    obtain rfl := Option.some.inj h
    exact ⟨ha, hv⟩
  | cons a as ih =>
    intro st st' h ha hv
    cases hstep : stepFetch net n op st a with
    | none =>
      rw [fetchLoop, hstep] at h
      cases h
    | some st1 =>
      rw [fetchLoop, hstep] at h
      obtain ⟨h1, h2⟩ := stepFetch_nodup net n op st st1 a hstep ha hv
      exact ih st1 st' h h1 h2

/-- First-run characterization: over locators with pairwise-distinct
derived paths, none of which is yet recorded, the loop appends exactly
the classified derived paths in order and leaves every derived path on
disk (downloading the missing ones). -/
theorem fetchLoop_fresh_run (net : List Char → List Char) (n : Nat) (op : List Char) :
    ∀ (links : List (List Char)) (st : FetchState),
      (∀ l ∈ links, l.any Char.isDigit = true) →
      (links.map (derived_pathD op)).Nodup →
      (∀ l ∈ links, derived_pathD op l ∉ st.audio_file_paths ∧
        derived_pathD op l ∉ st.video_file_paths) →
      ∃ st', fetchLoop net n op st links = some st' ∧
        st'.audio_file_paths = st.audio_file_paths ++ audioOf op links ∧
        st'.video_file_paths = st.video_file_paths ++ videoOf op links ∧
        (∀ l ∈ links, (diskGet st'.disk (derived_pathD op l)).isSome = true) ∧
        (∀ p, (diskGet st.disk p).isSome = true → (diskGet st'.disk p).isSome = true) := by
  intro links
  induction links with
  | nil =>
    intro st _ _ _
    refine ⟨st, rfl, by simp [audioOf], by simp [videoOf], ?_, fun p h => h⟩
    intro l hl
    simp at hl
  | cons a as ih =>
    intro st hdig hnodup hdisj
    have hda : a.any Char.isDigit = true := hdig a (List.mem_cons_self _ _)
    obtain ⟨hqa, hqv⟩ := hdisj a (List.mem_cons_self _ _)
    have hstep := stepFetch_fresh net n op st a (derived_pathD op a)
      (derived_path_eq_some op a hda) hqa hqv
    rw [List.map_cons, List.nodup_cons] at hnodup
    obtain ⟨hqnotin, hnodup'⟩ := hnodup
    by_cases hext : link_extension a = "aac".toList
    · rw [if_pos hext] at hstep
      obtain ⟨st', hloop, haud, hvid, hdiskall, hmono⟩ := ih
        { st with
            disk := (fetchIfAbsent st.disk (derived_pathD op a) (net a) st.transfers).1
            transfers := (fetchIfAbsent st.disk (derived_pathD op a) (net a) st.transfers).2
            audio_file_paths := st.audio_file_paths ++ [derived_pathD op a] }
        (fun l hl => hdig l (List.mem_cons_of_mem _ hl)) hnodup'
        (by
          intro l hl
          obtain ⟨h1, h2⟩ := hdisj l (List.mem_cons_of_mem _ hl)
          have hne : derived_pathD op l ≠ derived_pathD op a := by
            intro he
            exact hqnotin (he ▸ List.mem_map_of_mem (derived_pathD op) hl)
          constructor
          · simp only [List.mem_append, List.mem_singleton]
            rintro (hc | hc)
            · exact h1 hc
            · exact hne hc
          · exact h2)
      refine ⟨st', ?_, ?_, ?_, ?_, ?_⟩
      · rw [fetchLoop, hstep]
        exact hloop
      · rw [haud]
        simp [audioOf, hext, List.append_assoc]
      · rw [hvid]
        simp [videoOf, hext]
      · intro l hl
        rcases List.mem_cons.mp hl with rfl | hmem
        · exact hmono _ (fetchIfAbsent_get_self st.disk (derived_pathD op l) (net l) st.transfers)
        · exact hdiskall l hmem
      · intro p hp
        exact hmono p (fetchIfAbsent_get_mono st.disk (derived_pathD op a) (net a) p st.transfers hp)
    · rw [if_neg hext] at hstep
      obtain ⟨st', hloop, haud, hvid, hdiskall, hmono⟩ := ih
        { st with
            disk := (fetchIfAbsent st.disk (derived_pathD op a) (net a) st.transfers).1
            transfers := (fetchIfAbsent st.disk (derived_pathD op a) (net a) st.transfers).2
            video_file_paths := st.video_file_paths ++ [derived_pathD op a] }
        (fun l hl => hdig l (List.mem_cons_of_mem _ hl)) hnodup'
        (by
          intro l hl
          obtain ⟨h1, h2⟩ := hdisj l (List.mem_cons_of_mem _ hl)
          have hne : derived_pathD op l ≠ derived_pathD op a := by
            intro he
            exact hqnotin (he ▸ List.mem_map_of_mem (derived_pathD op) hl)
          constructor
          · exact h1
          · simp only [List.mem_append, List.mem_singleton]
            rintro (hc | hc)
            · exact h2 hc
            · exact hne hc)
      refine ⟨st', ?_, ?_, ?_, ?_, ?_⟩
      · rw [fetchLoop, hstep]
        exact hloop
      · rw [haud]
        conv_rhs => rw [audioOf]
        rw [if_neg hext]
      · rw [hvid]
        conv_rhs => rw [videoOf]
        rw [if_neg hext]
        simp [List.append_assoc]
      · intro l hl
        rcases List.mem_cons.mp hl with rfl | hmem
        · exact hmono _ (fetchIfAbsent_get_self st.disk (derived_pathD op l) (net l) st.transfers)
        · exact hdiskall l hmem
      · intro p hp
        exact hmono p (fetchIfAbsent_get_mono st.disk (derived_pathD op a) (net a) p st.transfers hp)

/-- Resume-run characterization: when additionally every derived path is
already on disk, the loop changes neither the disk nor the transfer
count, and appends the same classified paths. -/
theorem fetchLoop_resume_run (net : List Char → List Char) (n : Nat) (op : List Char) :
    ∀ (links : List (List Char)) (st : FetchState),
      (∀ l ∈ links, l.any Char.isDigit = true) →
      (links.map (derived_pathD op)).Nodup →
      (∀ l ∈ links, derived_pathD op l ∉ st.audio_file_paths ∧
        derived_pathD op l ∉ st.video_file_paths) →
      (∀ l ∈ links, (diskGet st.disk (derived_pathD op l)).isSome = true) →
      fetchLoop net n op st links = some
        { st with
            audio_file_paths := st.audio_file_paths ++ audioOf op links
            video_file_paths := st.video_file_paths ++ videoOf op links } := by
  intro links
  induction links with
  | nil =>
    intro st _ _ _ _
    simp [fetchLoop, audioOf, videoOf]
  | cons a as ih =>
    intro st hdig hnodup hdisj hpresent
    have hda := hdig a (List.mem_cons_self _ _)
    obtain ⟨hqa, hqv⟩ := hdisj a (List.mem_cons_self _ _)
    have hstep := stepFetch_fresh net n op st a (derived_pathD op a)
      (derived_path_eq_some op a hda) hqa hqv
    rw [fetchIfAbsent_present st.disk (derived_pathD op a) (net a) st.transfers
      (hpresent a (List.mem_cons_self _ _))] at hstep
    dsimp only at hstep
    rw [List.map_cons, List.nodup_cons] at hnodup
    obtain ⟨hqnotin, hnodup'⟩ := hnodup
    have hne : ∀ l ∈ as, derived_pathD op l ≠ derived_pathD op a := by
      intro l hl he
      exact hqnotin (he ▸ List.mem_map_of_mem (derived_pathD op) hl)
    by_cases hext : link_extension a = "aac".toList
    · rw [if_pos hext] at hstep
      rw [fetchLoop, hstep]
      refine (ih { st with audio_file_paths := st.audio_file_paths ++ [derived_pathD op a] }
        (fun l hl => hdig l (List.mem_cons_of_mem _ hl)) hnodup'
        (by
          intro l hl
          obtain ⟨h1, h2⟩ := hdisj l (List.mem_cons_of_mem _ hl)
          refine ⟨?_, h2⟩
          simp only [List.mem_append, List.mem_singleton]
          rintro (hc | hc)
          · exact h1 hc
          · exact hne l hl hc)
        (fun l hl => hpresent l (List.mem_cons_of_mem _ hl))).trans ?_
      simp [audioOf, videoOf, hext, List.append_assoc]
    · rw [if_neg hext] at hstep
      rw [fetchLoop, hstep]
      refine (ih { st with video_file_paths := st.video_file_paths ++ [derived_pathD op a] }
        (fun l hl => hdig l (List.mem_cons_of_mem _ hl)) hnodup'
        (by
          intro l hl
          obtain ⟨h1, h2⟩ := hdisj l (List.mem_cons_of_mem _ hl)
          refine ⟨h1, ?_⟩
          simp only [List.mem_append, List.mem_singleton]
          rintro (hc | hc)
          · exact h2 hc
          · exact hne l hl hc)
        (fun l hl => hpresent l (List.mem_cons_of_mem _ hl))).trans ?_
      conv_rhs => rw [audioOf, videoOf]
      rw [if_neg hext, if_neg hext]
      simp [List.append_assoc]

/-- The claim C3 as stated is false: over the duplicate-path sequence
`[linkV1, linkV1]`, the second run against the disk left by the first
performs one network transfer (the stale-duplicate eviction re-fires and
re-downloads), not zero. -/
theorem c3_counterexample :
    ((download_video_fragments net0 [linkV1, linkV1] op0 []).bind
      (fun s1 => download_video_fragments net0 [linkV1, linkV1] op0 s1.disk)).map
      FetchState.transfers = some 1 := by decide

/-- C3 (amended): provided the derived local paths of the locator
sequence are pairwise distinct, a second run of the fetcher over the
same sequence against the fragment directory left by the first run
performs zero network transfers and returns an identical FragmentSet. -/
theorem c3_idempotent_fetch (net : List Char → List Char) (links : List (List Char))
    (op : List Char) (disk0 : Disk)
    (hnodup : (links.map (derived_pathD op)).Nodup) :
    ∀ s1, download_video_fragments net links op disk0 = some s1 →
    ∃ s2, download_video_fragments net links op s1.disk = some s2 ∧
      s2.audio_file_paths = s1.audio_file_paths ∧
      s2.video_file_paths = s1.video_file_paths ∧
      s2.transfers = 0 := by
  intro s1 h1
  have hdig : ∀ l ∈ links, l.any Char.isDigit = true := by
    apply fetchLoop_digits_of_isSome net links.length op links
      { disk := disk0, audio_file_paths := [], video_file_paths := [],
        transfers := 0, notices := 0 }
    unfold download_video_fragments at h1
    rw [h1]
    rfl
  obtain ⟨st', hloop, haud, hvid, hdiskall, _⟩ := fetchLoop_fresh_run net links.length op links
    { disk := disk0, audio_file_paths := [], video_file_paths := [],
      transfers := 0, notices := 0 }
    hdig hnodup (fun l hl => ⟨List.not_mem_nil _, List.not_mem_nil _⟩)
  have hs1 : s1 = st' := by
    unfold download_video_fragments at h1
    rw [hloop] at h1
    exact (Option.some.inj h1).symm
  subst hs1
  have h2 := fetchLoop_resume_run net links.length op links
    { disk := s1.disk, audio_file_paths := [], video_file_paths := [],
      transfers := 0, notices := 0 }
    hdig hnodup (fun l hl => ⟨List.not_mem_nil _, List.not_mem_nil _⟩)
    (fun l hl => hdiskall l hl)
  refine ⟨_, h2, ?_, ?_, rfl⟩
  · rw [haud]
  · rw [hvid]

/-- Witness for C3's amended theorem at the concrete distinct-path
sequence `[linkV1, linkA2]` and the disk `disk1` its first run leaves. -/
theorem c3_witness :
    ∃ s2, download_video_fragments net0 [linkV1, linkA2] op0 disk1 = some s2 ∧
      s2.audio_file_paths = [af7] ∧ s2.video_file_paths = [vf7] ∧ s2.transfers = 0 := by
  obtain ⟨s2, h2, ha, hv, ht⟩ := c3_idempotent_fetch net0 [linkV1, linkA2] op0 [] (by decide)
    { disk := disk1, audio_file_paths := [af7], video_file_paths := [vf7],
      transfers := 2, notices := 0 } (by decide)
  exact ⟨s2, h2, by rw [ha], by rw [hv], ht⟩

/-- C8: the fetcher keeps each local path at most once per sequence
(both sequences stay duplicate-free through the whole run), and a step
on a locator whose derived path is already recorded and on disk deletes
the stale file, makes the arriving content canonical at that path, and
appends no second entry. -/
theorem c8_path_uniqueness (net : List Char → List Char) (op : List Char) (d0 : Disk) :
    (∀ (links : List (List Char)) (s' : FetchState),
      download_video_fragments net links op d0 = some s' →
      s'.audio_file_paths.Nodup ∧ s'.video_file_paths.Nodup) ∧
    (∀ (n : Nat) (st : FetchState) (l q : List Char),
      derived_path op l = some q →
      q ∈ st.audio_file_paths ∨ q ∈ st.video_file_paths →
      (diskGet st.disk q).isSome = true →
      ∃ st', stepFetch net n op st l = some st' ∧
        st'.audio_file_paths = st.audio_file_paths ∧
        st'.video_file_paths = st.video_file_paths ∧
        diskGet st'.disk q = some (net l) ∧
        st'.transfers = st.transfers + 1) := by
  constructor
  · intro links s' h
    exact fetchLoop_nodup net links.length op links
      { disk := d0, audio_file_paths := [], video_file_paths := [],
        transfers := 0, notices := 0 } s' h List.nodup_nil List.nodup_nil
  · intro n st l q hq hrec hdisk
    exact stepFetch_dup net n op st l q hq hrec hdisk

/-- Witness for C8 at the concrete duplicate state `stDup`: the stale
file is replaced by the arriving content and no entry is appended. -/
theorem c8_witness :
    ∃ st', stepFetch net0 2 op0 stDup linkV1 = some st' ∧
      st'.audio_file_paths = stDup.audio_file_paths ∧
      st'.video_file_paths = stDup.video_file_paths ∧
      diskGet st'.disk (derived_pathD op0 linkV1) = some (net0 linkV1) ∧
      st'.transfers = stDup.transfers + 1 :=
  (c8_path_uniqueness net0 op0 []).2 2 stDup linkV1 (derived_pathD op0 linkV1)
    (by decide) (by decide) (by decide)

/-- C10: a digit-free locator aborts the per-locator step with no state
change (the unguarded index error of line 66 fires before any transfer
or write), and the fetcher completes if and only if every locator
contains at least one digit. -/
theorem c10_digit_precondition (net : List Char → List Char) (n : Nat) (op : List Char)
    (links : List (List Char)) (d0 : Disk) :
    (∀ (st : FetchState) (l : List Char), l.any Char.isDigit = false →
      stepFetch net n op st l = none) ∧
    ((download_video_fragments net links op d0).isSome = true ↔
      ∀ l ∈ links, l.any Char.isDigit = true) := by
  refine ⟨fun st l h => stepFetch_none net n op st l h, ?_, ?_⟩
  · intro h
    exact fetchLoop_digits_of_isSome net links.length op links
      { disk := d0, audio_file_paths := [], video_file_paths := [],
        transfers := 0, notices := 0 } h
  · intro h
    exact fetchLoop_isSome_of_digits net links.length op links
      { disk := d0, audio_file_paths := [], video_file_paths := [],
        transfers := 0, notices := 0 } h

/-- Witness for C10 at the digit-free locator `abc.ts`. -/
theorem c10_witness :
    stepFetch net0 1 op0 stDup linkNoDigit = none ∧
    (download_video_fragments net0 [linkNoDigit] op0 []).isSome = false :=
  ⟨(c10_digit_precondition net0 1 op0 [linkNoDigit] []).1 stDup linkNoDigit (by decide),
   by decide⟩

/-- `splitOnChar` never returns the empty list. -/
theorem splitOnChar_ne_nil (c : Char) (s : List Char) : splitOnChar c s ≠ [] := by
  cases s with
  | nil => simp [splitOnChar]
  | cons a as =>
    simp only [splitOnChar]
    split
    · simp
    · split <;> simp

/-- Splitting at the first separator, when the head piece is
separator-free. -/
theorem splitOnChar_append_sep (c : Char) (a b : List Char) (h : c ∉ a) :
    splitOnChar c (a ++ c :: b) = a :: splitOnChar c b := by
  induction a with
  | nil =>
    simp only [List.nil_append, splitOnChar]
    simp
  | cons x xs ih =>
    have hx : ¬x = c := fun he => h (he ▸ List.mem_cons_self _ _)
    have hxs : c ∉ xs := fun hm => h (List.mem_cons_of_mem _ hm)
    simp only [List.cons_append, splitOnChar, List.append_eq]
    rw [if_neg hx, ih hxs]

/-- Splitting and re-joining on the same separator is the identity. -/
theorem joinChar_splitOnChar (c : Char) (s : List Char) :
    joinChar c (splitOnChar c s) = s := by
  induction s with
  | nil => rfl
  | cons a as ih =>
    simp only [splitOnChar]
    by_cases h : a = c
    · rw [if_pos h, h]
      cases hr : splitOnChar c as with
      | nil => exact absurd hr (splitOnChar_ne_nil c as)
      | cons y ys =>
        rw [hr] at ih
        show c :: joinChar c (y :: ys) = c :: as
        rw [ih]
    · rw [if_neg h]
      cases hr : splitOnChar c as with
      | nil => exact absurd hr (splitOnChar_ne_nil c as)
      | cons y ys =>
        rw [hr] at ih
        cases ys with
        | nil =>
          show a :: y = a :: as
          rw [show joinChar c [y] = y from rfl] at ih
          rw [ih]
        | cons z zs =>
          show (a :: y) ++ c :: joinChar c (z :: zs) = a :: as
          rw [show joinChar c (y :: z :: zs) = y ++ c :: joinChar c (z :: zs) from rfl] at ih
          rw [List.cons_append, ih]

/-- The manifest entry for a path under a separator-free directory is
the remainder after the directory. -/
theorem relpath_entry_prefixed (op rest : List Char) (h : bslash ∉ op) :
    relpath_entry (op ++ bslash :: rest) = rest := by
  unfold relpath_entry
  rw [splitOnChar_append_sep bslash op rest h]
  show joinChar bslash (splitOnChar bslash rest) = rest
  exact joinChar_splitOnChar bslash rest

/-- `isPrefixL` cancels a shared prefix. -/
theorem isPrefixL_append (a b d : List Char) :
    isPrefixL (a ++ b) (a ++ d) = isPrefixL b d := by
  induction a with
  | nil => rfl
  | cons x xs ih => simp [isPrefixL, ih]

/-- Relativization of a path directly under a directory. -/
theorem relativeToDir_prefixed (op rest : List Char) :
    relativeToDir op (op ++ bslash :: rest) = some rest := by
  unfold relativeToDir
  have h1 : isPrefixL (op ++ [bslash]) (op ++ bslash :: rest) = true := by
    rw [show (bslash :: rest) = [bslash] ++ (bslash :: rest).tail from rfl]
    rw [isPrefixL_append]
    simp [isPrefixL]
  rw [if_pos h1]
  congr 1
  rw [← List.drop_drop, List.drop_left]
  simp

/-- Joining distinct names under the same directory gives distinct paths. -/
theorem os_join_right_ne (op a b : List Char) (h : a ≠ b) : os_join op a ≠ os_join op b := by
  intro he
  unfold os_join at he
  have h2 := List.append_cancel_left he
  injection h2 with h3 h4
  exact h h4

/-- With a non-empty audio list, the strategy selection runs the
separate-tracks arm. -/
theorem reassembly_run_eq_separate (op : List Char) (vfs afs : List (List Char))
    (h : afs ≠ []) :
    reassembly_run op vfs afs = separate_audio_concat op vfs afs := by
  unfold reassembly_run
  rw [if_neg (fun hlen => h (List.length_eq_zero.mp hlen))]

/-- The reassembly phase itself removes no file. -/
theorem reassembly_run_no_removeFile (op : List Char) (vfs afs : List (List Char))
    (p : List Char) :
    Event.removeFile p ∉ (reassembly_run op vfs afs).1 := by
  unfold reassembly_run separate_audio_concat integrated_audio_concat
  by_cases ha : afs.length = 0
  · simp [ha]
  · rw [if_neg ha]
    by_cases hl : vfs.length = afs.length
    · rw [if_pos hl]
      simp
    · rw [if_neg hl]
      simp

/-- The reassembly phase never removes the fragments directory. -/
theorem reassembly_run_no_rmTree_fragments (op : List Char) (vfs afs : List (List Char)) :
    Event.rmTree (os_join op "fragments".toList) ∉ (reassembly_run op vfs afs).1 := by
  unfold reassembly_run separate_audio_concat integrated_audio_concat
  by_cases ha : afs.length = 0
  · simp [ha]
  · rw [if_neg ha]
    by_cases hl : vfs.length = afs.length
    · rw [if_pos hl]
      have hne : os_join op "fragments".toList ≠ os_join op "temp".toList :=
        os_join_right_ne op "fragments".toList "temp".toList (by decide)
      simp
      exact hne
    · rw [if_neg hl]
      simp

/-- The reassembly phase never emits the small-artifact warning. -/
theorem reassembly_run_no_warn (op : List Char) (vfs afs : List (List Char)) :
    Event.warnSmall ∉ (reassembly_run op vfs afs).1 := by
  unfold reassembly_run separate_audio_concat integrated_audio_concat
  by_cases ha : afs.length = 0
  · simp [ha]
  · rw [if_neg ha]
    by_cases hl : vfs.length = afs.length
    · rw [if_pos hl]
      simp
    · rw [if_neg hl]
      simp

/-- A successful separate-tracks run removes its temp directory. -/
theorem separate_ok_rmTree_temp (op : List Char) (vfs afs : List (List Char))
    (ev : List Event) (vp : List Char)
    (h : separate_audio_concat op vfs afs = (ev, Except.ok vp)) :
    Event.rmTree (os_join op "temp".toList) ∈ ev := by
  unfold separate_audio_concat at h
  by_cases hl : vfs.length = afs.length
  · rw [if_pos hl] at h
    injection h with h1 h2
    rw [← h1]
    simp
  · rw [if_neg hl] at h
    injection h with h1 h2
    cases h2

/-- Behaviour of `fragment_concat` once the strategy has produced an
output path: the size gate alone decides between warning and cleanup. -/
theorem fragment_concat_ok (getsize : List Char → Nat) (op : List Char)
    (vfs afs : List (List Char)) (ev : List Event) (vp : List Char)
    (h : reassembly_run op vfs afs = (ev, Except.ok vp)) :
    fragment_concat getsize op vfs afs =
      if getsize vp < 10000 then (ev ++ [Event.warnSmall], Except.ok ())
      else (ev ++ [Event.removeFile (os_join op "files.txt".toList),
        Event.rmTree (os_join op "fragments".toList)], Except.ok ()) := by
  unfold fragment_concat
  rw [h]

/-- C4: in separate-tracks mode a length mismatch raises the
precondition failure before any event (no external process, no temp
state); equal lengths never raise it. -/
theorem c4_separate_precondition (op : List Char) (vfs afs : List (List Char)) :
    (vfs.length ≠ afs.length →
      separate_audio_concat op vfs afs = ([], Except.error (vfs.length, afs.length))) ∧
    (vfs.length = afs.length →
      ∃ ev vp, separate_audio_concat op vfs afs = (ev, Except.ok vp)) := by
  constructor
  · intro h
    unfold separate_audio_concat
    rw [if_neg h]
  · intro h
    unfold separate_audio_concat
    rw [if_pos h]
    exact ⟨_, _, rfl⟩

/-- Witness for C4 at a 1-video / 0-audio set (error, no events) and at
a matched 1/1 set (no error). -/
theorem c4_witness :
    separate_audio_concat op0 [vf7] [] = ([], Except.error (1, 0)) ∧
    ∃ ev vp, separate_audio_concat op0 [vf7] [af7] = (ev, Except.ok vp) :=
  ⟨(c4_separate_precondition op0 [vf7] []).1 (by decide),
   (c4_separate_precondition op0 [vf7] [af7]).2 rfl⟩

/-- C9: the Reassembler selects its strategy exactly once from the
FragmentSet — the integrated arm iff the audio sequence is empty, the
separate-tracks arm iff it is non-empty. -/
theorem c9_strategy_selection (op : List Char) (vfs afs : List (List Char)) :
    (afs = [] → reassembly_run op vfs afs =
      ((integrated_audio_concat op vfs none).1,
        Except.ok (integrated_audio_concat op vfs none).2)) ∧
    (afs ≠ [] → reassembly_run op vfs afs = separate_audio_concat op vfs afs) := by
  constructor
  · intro h
    subst h
    rfl
  · exact reassembly_run_eq_separate op vfs afs

/-- Witness for C9 at an empty and a non-empty audio set. -/
theorem c9_witness :
    reassembly_run op0 [vf7] [] =
      ((integrated_audio_concat op0 [vf7] none).1,
        Except.ok (integrated_audio_concat op0 [vf7] none).2) ∧
    reassembly_run op0 [vf7] [af7] = separate_audio_concat op0 [vf7] [af7] :=
  ⟨(c9_strategy_selection op0 [vf7] []).1 rfl,
   (c9_strategy_selection op0 [vf7] [af7]).2 (by decide)⟩

/-- C6: after reassembly the cleanup is gated solely on the artifact's
size against 10000: below the threshold only the warning is emitted and
neither `files.txt` nor the fragments directory is removed; at or above
it both are removed and no warning is emitted. -/
theorem c6_cleanup_gate (getsize : List Char → Nat) (op : List Char)
    (vfs afs : List (List Char)) (ev : List Event) (vp : List Char)
    (h : reassembly_run op vfs afs = (ev, Except.ok vp)) :
    (getsize vp < 10000 →
      fragment_concat getsize op vfs afs = (ev ++ [Event.warnSmall], Except.ok ()) ∧
      (∀ p, Event.removeFile p ∉ (fragment_concat getsize op vfs afs).1) ∧
      Event.rmTree (os_join op "fragments".toList) ∉ (fragment_concat getsize op vfs afs).1) ∧
    (10000 ≤ getsize vp →
      Event.removeFile (os_join op "files.txt".toList) ∈ (fragment_concat getsize op vfs afs).1 ∧
      Event.rmTree (os_join op "fragments".toList) ∈ (fragment_concat getsize op vfs afs).1 ∧
      Event.warnSmall ∉ (fragment_concat getsize op vfs afs).1) := by
  have hev : (reassembly_run op vfs afs).1 = ev := by rw [h]
  constructor
  · intro hs
    rw [fragment_concat_ok getsize op vfs afs ev vp h, if_pos hs]
    refine ⟨rfl, ?_, ?_⟩
    · intro p hmem
      rcases List.mem_append.mp hmem with hc | hc
      · exact reassembly_run_no_removeFile op vfs afs p (hev ▸ hc)
      · simp at hc
    · intro hmem
      rcases List.mem_append.mp hmem with hc | hc
      · exact reassembly_run_no_rmTree_fragments op vfs afs (hev ▸ hc)
      · simp at hc
  · intro hs
    rw [fragment_concat_ok getsize op vfs afs ev vp h, if_neg (by omega)]
    refine ⟨?_, ?_, ?_⟩
    · simp
    · simp
    · intro hmem
      rcases List.mem_append.mp hmem with hc | hc
      · exact reassembly_run_no_warn op vfs afs (hev ▸ hc)
      · simp at hc

/-- Witness for C6 at a 9999-byte and a 10000-byte artifact in the
integrated strategy. -/
theorem c6_witness :
    (fragment_concat g9999 op0 [vf7] []).1 =
      (integrated_audio_concat op0 [vf7] none).1 ++ [Event.warnSmall] ∧
    Event.removeFile (os_join op0 "files.txt".toList) ∈ (fragment_concat g10000 op0 [vf7] []).1 ∧
    Event.rmTree (os_join op0 "fragments".toList) ∈ (fragment_concat g10000 op0 [vf7] []).1 ∧
    Event.warnSmall ∉ (fragment_concat g10000 op0 [vf7] []).1 := by
  refine ⟨?_, ?_, ?_, ?_⟩
  · exact congrArg Prod.fst ((c6_cleanup_gate g9999 op0 [vf7] [] _ _ rfl).1 (by decide)).1
  · exact ((c6_cleanup_gate g10000 op0 [vf7] [] _ _ rfl).2 (by decide)).1
  · exact ((c6_cleanup_gate g10000 op0 [vf7] [] _ _ rfl).2 (by decide)).2.1
  · exact ((c6_cleanup_gate g10000 op0 [vf7] [] _ _ rfl).2 (by decide)).2.2

/-- The claim C7 as stated is false: in the separate-tracks strategy
with a 9999-byte artifact (a ValidationWarning ending, witnessed by the
warning in the trace), the temp directory has nevertheless been removed
— temp state does not survive for inspection. -/
theorem c7_counterexample :
    Event.warnSmall ∈ (fragment_concat g9999 op0 [vf7] [af7]).1 ∧
    Event.rmTree (os_join op0 "temp".toList) ∈ (fragment_concat g9999 op0 [vf7] [af7]).1 := by
  decide

/-- C7 (amended): when the final artifact is smaller than 10000 bytes,
the manifest and the fragments directory are left in place in both
strategies, but in the separate-tracks strategy the temp directory has
already been removed unconditionally before validation. -/
theorem c7_small_artifact_state (getsize : List Char → Nat) (op : List Char)
    (vfs afs : List (List Char)) (ev : List Event) (vp : List Char)
    (h : reassembly_run op vfs afs = (ev, Except.ok vp))
    (hsz : getsize vp < 10000) :
    (∀ p, Event.removeFile p ∉ (fragment_concat getsize op vfs afs).1) ∧
    Event.rmTree (os_join op "fragments".toList) ∉ (fragment_concat getsize op vfs afs).1 ∧
    (afs ≠ [] → Event.rmTree (os_join op "temp".toList) ∈ (fragment_concat getsize op vfs afs).1) := by
  have hev : (reassembly_run op vfs afs).1 = ev := by rw [h]
  rw [fragment_concat_ok getsize op vfs afs ev vp h, if_pos hsz]
  refine ⟨?_, ?_, ?_⟩
  · intro p hmem
    rcases List.mem_append.mp hmem with hc | hc
    · exact reassembly_run_no_removeFile op vfs afs p (hev ▸ hc)
    · simp at hc
  · intro hmem
    rcases List.mem_append.mp hmem with hc | hc
    · exact reassembly_run_no_rmTree_fragments op vfs afs (hev ▸ hc)
    · simp at hc
  · intro hne
    have hsep := (reassembly_run_eq_separate op vfs afs hne).symm.trans h
    exact List.mem_append.mpr (Or.inl (separate_ok_rmTree_temp op vfs afs ev vp hsep))

/-- Witness for C7's amended theorem at a 9999-byte separate-tracks run. -/
theorem c7_witness :
    (∀ p, Event.removeFile p ∉ (fragment_concat g9999 op0 [vf7] [af7]).1) ∧
    Event.rmTree (os_join op0 "fragments".toList) ∉ (fragment_concat g9999 op0 [vf7] [af7]).1 ∧
    (([af7] : List (List Char)) ≠ [] →
      Event.rmTree (os_join op0 "temp".toList) ∈ (fragment_concat g9999 op0 [vf7] [af7]).1) :=
  c7_small_artifact_state g9999 op0 [vf7] [af7] _ _ rfl (by decide)

/-- The claim C5 as stated is false: for the two-component output
directory `a\b`, the manifest entry written for
`a\b\fragments\f0.ts` is `b\fragments\f0.ts`, which is not that path
relative to the manifest's directory (`fragments\f0.ts`). -/
theorem c5_counterexample :
    (integrated_audio_concat opm [pm] none).1 =
      [Event.writeManifest (opm ++ slash :: "files.txt".toList) [relpath_entry pm],
       Event.concatCall (opm ++ slash :: "files.txt".toList)
         (opm ++ slash :: (basename opm ++ ".mp4".toList))] ∧
    relativeToDir opm pm = some ("fragments".toList ++ bslash :: "f0.ts".toList) ∧
    relpath_entry pm ≠ "fragments".toList ++ bslash :: "f0.ts".toList := by
  refine ⟨rfl, by decide, by decide⟩

/-- C5 (amended): the manifest lists one entry per videoFragments path,
in recorded order, each entry being the path with its first
`\`-delimited component removed; when the output directory name contains
no separator and every path lies directly under it, this equals the path
relative to the manifest's directory. -/
theorem c5_manifest_entries (op : List Char) (paths : List (List Char))
    (vp? : Option (List Char)) (hop : bslash ∉ op)
    (hp : ∀ p ∈ paths, ∃ rest, p = op ++ bslash :: rest) :
    (integrated_audio_concat op paths vp?).1.head? =
      some (Event.writeManifest (op ++ slash :: "files.txt".toList)
        (paths.map (fun p => (relativeToDir op p).getD []))) ∧
    ∀ p ∈ paths, (relativeToDir op p).isSome = true ∧
      relpath_entry p = (relativeToDir op p).getD [] := by
  have hmap : paths.map relpath_entry = paths.map (fun p => (relativeToDir op p).getD []) := by
    apply List.map_congr_left
    intro p hps
    obtain ⟨rest, rfl⟩ := hp p hps
    rw [relpath_entry_prefixed op rest hop, relativeToDir_prefixed op rest]
    rfl
  constructor
  · show some (Event.writeManifest (op ++ slash :: "files.txt".toList)
      (paths.map relpath_entry)) = _
    rw [hmap]
  · intro p hps
    obtain ⟨rest, rfl⟩ := hp p hps
    rw [relativeToDir_prefixed op rest]
    exact ⟨rfl, by rw [relpath_entry_prefixed op rest hop]; rfl⟩

/-- Witness for C5's amended theorem at the single-component output
directory `o` and the fragment path `vf7` under it. -/
theorem c5_witness :
    (integrated_audio_concat op0 [vf7] none).1.head? =
      some (Event.writeManifest (op0 ++ slash :: "files.txt".toList)
        ([vf7].map (fun p => (relativeToDir op0 p).getD []))) ∧
    ∀ p ∈ ([vf7] : List (List Char)), (relativeToDir op0 p).isSome = true ∧
      relpath_entry p = (relativeToDir op0 p).getD [] :=
  c5_manifest_entries op0 [vf7] none (by decide)
    (by
      intro p hps
      rw [List.mem_singleton] at hps
      exact ⟨"fragments".toList ++ bslash :: "o_00001.ts".toList, by rw [hps]; decide⟩)
